import Mathlib

/-!
Shallow embedding of the advanced-vector repository
(src/advanced-vector/vector.h): a growable contiguous container
`Vector<T>` built on a raw buffer `RawMemory<T>`.

The raw buffer is modelled as a list of slots, each slot either holding a
live constructed object (`some x`) or being uninitialized raw memory
(`none`).  The capacity of the buffer is the length of the slot list, and
`size` counts the slots the container believes are live.  Machine
pointers disappear: positions are offsets from the start of the buffer,
exactly as the source computes them (`pos - begin()`).
-/

namespace AdvVec

/-- The state of `Vector<T>`: `buf` models the `RawMemory<T>` buffer of
`capacity` slots (`buf.length = capacity_`), each slot `some x` when a
live `T` object with value `x` exists there and `none` when the slot is
uninitialized memory; `size` models `size_`. -/
structure Vec (α : Type) where
  buf : List (Option α)
  size : Nat
deriving DecidableEq, Repr

namespace Vec

variable {α : Type}

/-- `data_.Capacity()`: slot count of the owned buffer. -/
def cap (v : Vec α) : Nat := v.buf.length

/-- The slots the container regards as live: offsets `[0, size)`. -/
def live (v : Vec α) : List (Option α) := v.buf.take v.size

/-- The element values in index order (the contents of the live slots). -/
def elems (v : Vec α) : List α := v.live.filterMap id

/-- The representation invariant of `Vector<T>`: `size_` never exceeds
the capacity, and every slot in `[0, size_)` holds a live object. -/
def WF (v : Vec α) : Prop := v.size ≤ v.cap ∧ ∀ o ∈ v.live, o.isSome

instance (v : Vec α) : Decidable v.WF :=
  inferInstanceAs (Decidable (v.size ≤ v.cap ∧ ∀ o ∈ v.live, o.isSome))

/-- Overwrite the slots `[start, start + xs.length)` of a buffer with the
slots `xs`, leaving everything else in place (the effect of a batch of
placement-constructions, assignments or destructions at consecutive
offsets). -/
def overwrite (buf : List (Option α)) (start : Nat) (xs : List (Option α)) :
    List (Option α) :=
  buf.take start ++ xs ++ buf.drop (start + xs.length)

/-- `Vector()` — default construction: no allocation, empty. -/
def empty : Vec α := ⟨[], 0⟩

/-- `Vector(count)` — allocates exactly `count` slots and
value-constructs `count` elements in place
(`std::uninitialized_value_construct_n`). -/
def ofCount [Inhabited α] (count : Nat) : Vec α :=
  ⟨List.replicate count (some (default : α)), count⟩

/-- `Vector(const Vector&)` — allocates `other.size_` slots and copies
the `other.size_` live objects into them
(`std::uninitialized_copy_n`). -/
def copyCtor (v : Vec α) : Vec α := ⟨v.buf.take v.size, v.size⟩

/-- `Vector(Vector&&)` — steals the buffer (`RawMemory` move sets the
source buffer to null / capacity 0) and exchanges `size_` with 0.
Returns (constructed target, source after the move). -/
def moveCtor (v : Vec α) : Vec α × Vec α := (⟨v.buf, v.size⟩, ⟨[], 0⟩)

/-- `operator=(Vector&&)` — `same` models the `this != &other` pointer
identity test.  When distinct, the buffer and size are transferred and
the source is reset to null / 0.  Returns (target after, source after). -/
def moveAssign (same : Bool) (a b : Vec α) : Vec α × Vec α :=
  if same then (a, b) else (⟨b.buf, b.size⟩, ⟨[], 0⟩)

/-- `Swap` — exchanges buffers and sizes, no element-level work. -/
def SwapOp (a b : Vec α) : Vec α × Vec α := (⟨b.buf, b.size⟩, ⟨a.buf, a.size⟩)

/-- `Reserve(new_capacity)` — no-op when the request does not exceed the
capacity; otherwise allocate `new_capacity` raw slots, relocate the
`size_` live objects into the prefix (`CopyOrMove`, which preserves the
values whether it moves or copies), destroy the stale originals and swap
the buffers in. -/
def Reserve (v : Vec α) (n : Nat) : Vec α :=
  if n ≤ v.cap then v
  else ⟨v.buf.take v.size ++ List.replicate (n - v.size) none, v.size⟩

/-- `Resize(new_size)` — mirrors the source's branch structure exactly:
when `capacity > new_size` it destroys the trailing live objects
(shrink) or default-constructs the missing ones (grow); when
`capacity < new_size` it reserves and then default-constructs; when
`capacity == new_size` neither branch runs; in every case the source
finishes with `size_ = new_size`. -/
def Resize [Inhabited α] (v : Vec α) (n : Nat) : Vec α :=
  if n < v.cap then
    if n < v.size then
      ⟨overwrite v.buf n (List.replicate (v.size - n) none), n⟩
    else if v.size < n then
      ⟨overwrite v.buf v.size (List.replicate (n - v.size) (some default)), n⟩
    else ⟨v.buf, n⟩
  else if v.cap < n then
    let w := v.Reserve n
    ⟨overwrite w.buf w.size (List.replicate (n - w.size) (some default)), n⟩
  else ⟨v.buf, n⟩

/-- `EmplaceWithAllocate(position, args...)` on the success path: when
`size_ == 0` it allocates one slot and constructs the new element at
offset 0; otherwise it allocates `2 * capacity` raw slots, constructs
the new element directly at offset `position` of the new buffer,
relocates the prefix `[0, position)` and the suffix `[position, size_)`
(shifted by one), swaps and destroys the stale originals.  The second
component records the offsets in the adopted buffer at which the new
element was constructed (the source performs exactly one placement-new
of the new element). -/
def EmplaceWithAllocate (v : Vec α) (p : Nat) (x : α) : Vec α × List Nat :=
  if v.size = 0 then
    (⟨[some x], v.size⟩, [0])
  else
    (⟨v.buf.take p ++ [some x] ++ (v.buf.drop p).take (v.size - p) ++
        List.replicate (2 * v.cap - (v.size + 1)) none, v.size⟩, [p])

/-- `EmplaceWithoutAllocate(position, args...)` on the success path:
for `position < size_` the temporary is built, the last element is
move-constructed into slot `size_`, the range `[position, size_ - 1)` is
shifted one slot right (`std::move_backward`) and the temporary is
move-assigned into slot `position`; for `position == size_` the element
is constructed in the next free slot. -/
def EmplaceWithoutAllocate (v : Vec α) (p : Nat) (x : α) : Vec α :=
  if p < v.size then
    ⟨v.buf.take p ++ [some x] ++ (v.buf.drop p).take (v.size - p) ++
        v.buf.drop (v.size + 1), v.size⟩
  else
    ⟨overwrite v.buf v.size [some x], v.size⟩

/-- `Emplace(pos, args...)` — dispatches on `size_ == capacity`, then
increments `size_`. -/
def Emplace (v : Vec α) (p : Nat) (x : α) : Vec α :=
  let w := if v.size = v.cap then (v.EmplaceWithAllocate p x).1
           else v.EmplaceWithoutAllocate p x
  ⟨w.buf, w.size + 1⟩

/-- `PushBack(elem)` — forwards to `Emplace(cend(), elem)`. -/
def PushBack (v : Vec α) (x : α) : Vec α := v.Emplace v.size x

/-- `EmplaceBack(args...)` — forwards to `Emplace(cend(), args...)`. -/
def EmplaceBack (v : Vec α) (x : α) : Vec α := v.Emplace v.size x

/-- `Insert(pos, elem)` — forwards to `Emplace`. -/
def Insert (v : Vec α) (p : Nat) (x : α) : Vec α := v.Emplace p x

/-- `Erase(pos)` — mirrors the source's branch structure: the
`position == size_` branch destroys slot `size_ - 1`; otherwise the
range `[position + 1, size_)` is move-assigned one slot left
(`std::move`), the vacated slot `size_ - 1` is destroyed, and `size_`
is decremented. -/
def Erase (v : Vec α) (p : Nat) : Vec α :=
  if p = v.size then
    ⟨overwrite v.buf (v.size - 1) [none], v.size - 1⟩
  else
    ⟨overwrite v.buf p
        ((v.buf.drop (p + 1)).take (v.size - (p + 1)) ++ [none]),
      v.size - 1⟩

/-- `PopBack()` — destroys slot `size_ - 1` and decrements `size_`
(precondition `size_ > 0`, asserted in the source). -/
def PopBack (v : Vec α) : Vec α :=
  ⟨overwrite v.buf (v.size - 1) [none], v.size - 1⟩

/-- `operator=(const Vector&)`, with a fault model.  `same` models the
`this != &other` pointer test.  `failAt = some k` means the `(k+1)`-th
element-level copy operation of the assignment throws; `none` means no
throw.  On the reallocating path the only copies happen inside
`Vector temp(other)`, whose unwind destroys only `temp`, so the error
state is `a` itself.  On the sufficient-capacity path `std::copy`
assigns the overlapping prefix one element at a time (a throw leaves the
already-assigned prefix in place), then either
`std::uninitialized_copy_n` constructs the surplus (which destroys its
own partial work on a throw) or `std::destroy_n` destroys the excess
(which never throws); in every branch `size_` is written only after all
copies succeed. -/
def copyAssignE (same : Bool) (a b : Vec α) (failAt : Option Nat) :
    Except (Vec α) (Vec α) :=
  if same then .ok a
  else if a.cap < b.size then
    match failAt with
    | some k => if k < b.size then .error a else .ok ⟨b.buf.take b.size, b.size⟩
    | none => .ok ⟨b.buf.take b.size, b.size⟩
  else if a.size < b.size then
    match failAt with
    | some k =>
      if k < a.size then .error ⟨overwrite a.buf 0 (b.buf.take k), a.size⟩
      else if k < b.size then
        .error ⟨overwrite a.buf 0 (b.buf.take a.size), a.size⟩
      else .ok ⟨overwrite a.buf 0 (b.buf.take b.size), b.size⟩
    | none => .ok ⟨overwrite a.buf 0 (b.buf.take b.size), b.size⟩
  else
    match failAt with
    | some k =>
      if k < b.size then .error ⟨overwrite a.buf 0 (b.buf.take k), a.size⟩
      else .ok ⟨overwrite (overwrite a.buf 0 (b.buf.take b.size)) b.size
          (List.replicate (a.size - b.size) none), b.size⟩
    | none => .ok ⟨overwrite (overwrite a.buf 0 (b.buf.take b.size)) b.size
        (List.replicate (a.size - b.size) none), b.size⟩

/-- The element-level steps of the `position < size_` path of
`EmplaceWithoutAllocate` that can throw: the construction of the
temporary (`T new_elem = T(args...)`), the move-construction of the last
element into slot `size_`, the `k`-th move-assignment of the backward
shift (counting from the tail), and the final move-assignment into slot
`position`.  `noFail` is the run in which nothing throws. -/
inductive EmplaceStep
  | tempCtor
  | moveLast
  | shift (k : Nat)
  | finalAssign
  | noFail
deriving DecidableEq, Repr

/-- The observable state after a throwing run of
`EmplaceWithoutAllocate` unwound through the `catch` clause: the buffer
slots, the (unchanged) `size_`, and `freedAt = some o` recording that
the handler executed `operator delete` on the address of element offset
`o` inside the still-owned buffer (`operator delete (end())` in the
source) — a raw deallocation, which runs no destructor. -/
structure FailState (α : Type) where
  buf : List (Option α)
  size : Nat
  freedAt : Option Nat
deriving DecidableEq, Repr

/-- Buffer contents after the move-construction of the last element into
slot `size_` followed by the first `k` move-assignments of
`std::move_backward` (which works from the tail): step `j` writes the
value of slot `size_ - 2 - j` into slot `size_ - 1 - j`. -/
def shiftState (v : Vec α) : Nat → List (Option α)
  | 0 => overwrite v.buf v.size [v.buf.getD (v.size - 1) none]
  | k + 1 =>
      overwrite (shiftState v k) (v.size - 1 - k)
        [v.buf.getD (v.size - 2 - k) none]

/-- `EmplaceWithoutAllocate(position, args...)` with its exception
behaviour.  On the `position < size_` path every step runs inside the
`try`; on a throw the `catch` clause executes `operator delete (end())`
— recorded in `freedAt`, with no destructor invoked on any slot — and
rethrows, so `size_` is never incremented.  On the `position == size_`
path there is no `try`/`catch`: a throwing construction propagates with
the buffer untouched. -/
def EmplaceNoAllocRun (v : Vec α) (p : Nat) (x : α) (step : EmplaceStep) :
    Except (FailState α) (Vec α) :=
  if p < v.size then
    match step with
    | .noFail => .ok (v.EmplaceWithoutAllocate p x)
    | .tempCtor => .error ⟨v.buf, v.size, some v.size⟩
    | .moveLast => .error ⟨v.buf, v.size, some v.size⟩
    | .shift k =>
        .error ⟨shiftState v (min k (v.size - 1 - p)), v.size, some v.size⟩
    | .finalAssign => .error ⟨shiftState v (v.size - 1 - p), v.size, some v.size⟩
  else
    match step with
    | .noFail => .ok (v.EmplaceWithoutAllocate p x)
    | _ => .error ⟨v.buf, v.size, none⟩

/-! ### Claim statements -/

/-- The growth behaviour claimed for an insertion into a full vector:
capacity becomes exactly double (1 from 0), size grows by one, the new
element is constructed exactly once, directly at its final offset of the
new buffer, and `PushBack` / `EmplaceBack` / `Insert` all reach this
code through `Emplace`. -/
def GrowSpec (v : Vec α) (p : Nat) (x : α) : Prop :=
  (v.Emplace p x).cap = (if v.cap = 0 then 1 else 2 * v.cap) ∧
  (v.Emplace p x).size = v.size + 1 ∧
  (v.EmplaceWithAllocate p x).2 = [p] ∧
  (v.Emplace p x).buf[p]? = some (some x) ∧
  v.PushBack x = v.Emplace v.size x ∧
  v.EmplaceBack x = v.Emplace v.size x ∧
  v.Insert p x = v.Emplace p x

/-- The behaviour claimed for `Reserve`: no-op when the request fits,
exact capacity otherwise, capacity never shrinks, size and element
values/order never change. -/
def ReserveSpec (v : Vec α) (n : Nat) : Prop :=
  (n ≤ v.cap → v.Reserve n = v) ∧
  (v.cap < n → (v.Reserve n).cap = n) ∧
  v.cap ≤ (v.Reserve n).cap ∧
  (v.Reserve n).size = v.size ∧
  (v.Reserve n).elems = v.elems

/-- The behaviour claimed for copy assignment between distinct vectors:
the run succeeds with `b`'s size and elements; the capacity reveals the
branch (a fresh buffer of exactly `b.size` slots on the reallocating
branch, the old capacity otherwise); on the sufficient-capacity branch
the excess slots `[b.size, a.size)` end up destructed; and on the
reallocating branch a throw inside the copy leaves `a` untouched. -/
def CopyAssignSpec (a b : Vec α) : Prop :=
  ∃ r, copyAssignE false a b none = Except.ok r ∧ r.size = b.size ∧
    r.elems = b.elems ∧ r.cap = max a.cap b.size ∧
    (¬a.cap < b.size → ∀ i, b.size ≤ i → i < a.size →
      r.buf[i]? = some none) ∧
    (a.cap < b.size → ∀ k, k < b.size →
      copyAssignE false a b (some k) = Except.error a)

/-- The behaviour claimed for positional removal and for the
insert-then-remove round trip at the same position. -/
def InsertEraseSpec (v : Vec α) (p q : Nat) (x : α) : Prop :=
  ((v.Insert p x).Erase p).size = v.size ∧
  ((v.Insert p x).Erase p).elems = v.elems ∧
  (v.Erase q).size = v.size - 1 ∧
  (v.Erase q).elems = v.elems.take q ++ v.elems.drop (q + 1) ∧
  (v.Erase q).buf[v.size - 1]? = some none

/-- `size ≤ capacity` after every public operation of the container. -/
def InvariantSpec [Inhabited α] (v w : Vec α) (x : α) (n p q count : Nat) :
    Prop :=
  (empty (α := α)).size ≤ (empty (α := α)).cap ∧
  (ofCount (α := α) count).size ≤ (ofCount (α := α) count).cap ∧
  v.copyCtor.size ≤ v.copyCtor.cap ∧
  v.moveCtor.1.size ≤ v.moveCtor.1.cap ∧
  v.moveCtor.2.size ≤ v.moveCtor.2.cap ∧
  (∀ r, copyAssignE false v w none = Except.ok r → r.size ≤ r.cap) ∧
  (moveAssign false v w).1.size ≤ (moveAssign false v w).1.cap ∧
  (moveAssign false v w).2.size ≤ (moveAssign false v w).2.cap ∧
  (v.Reserve n).size ≤ (v.Reserve n).cap ∧
  (v.Resize n).size ≤ (v.Resize n).cap ∧
  (v.PushBack x).size ≤ (v.PushBack x).cap ∧
  (v.EmplaceBack x).size ≤ (v.EmplaceBack x).cap ∧
  (v.Emplace p x).size ≤ (v.Emplace p x).cap ∧
  (v.Insert p x).size ≤ (v.Insert p x).cap ∧
  (v.Erase q).size ≤ (v.Erase q).cap ∧
  v.PopBack.size ≤ v.PopBack.cap ∧
  (SwapOp v w).1.size ≤ (SwapOp v w).1.cap ∧
  (SwapOp v w).2.size ≤ (SwapOp v w).2.cap

/-! ### Basic lemmas about the representation -/

theorem length_overwrite {l xs : List (Option α)} {s : Nat}
    (h : s + xs.length ≤ l.length) :
    (overwrite l s xs).length = l.length := by
  simp [overwrite]
  omega

theorem all_some_eq_map {l : List (Option α)} (h : ∀ o ∈ l, o.isSome) :
    l = (l.filterMap id).map some := by
  induction l with
  | nil => rfl
  | cons o t ih =>
      obtain ⟨a, rfl⟩ := Option.isSome_iff_exists.mp (h o (by simp))
      simpa using ih (fun o ho => h o (by simp [ho]))

theorem live_length {v : Vec α} (h : v.WF) : v.live.length = v.size := by
  have := h.1
  simp [live, cap] at *
  omega

theorem live_eq_map_some {v : Vec α} (h : v.WF) :
    v.live = v.elems.map some :=
  all_some_eq_map h.2

theorem elems_length {v : Vec α} (h : v.WF) : v.elems.length = v.size := by
  have h1 := live_length h
  rw [live_eq_map_some h, List.length_map] at h1
  exact h1

/-! ### Reserve -/

theorem size_Reserve (v : Vec α) (n : Nat) : (v.Reserve n).size = v.size := by
  unfold Reserve
  split <;> rfl

theorem cap_Reserve {v : Vec α} (h : v.WF) (n : Nat) :
    (v.Reserve n).cap = max v.cap n := by
  unfold Reserve
  split
  · omega
  · have h1 := h.1
    simp [cap] at *
    omega

theorem live_Reserve {v : Vec α} (h : v.WF) (n : Nat) :
    (v.Reserve n).live = v.live := by
  unfold Reserve
  split
  · rfl
  · show (v.buf.take v.size ++ _).take v.size = _
    exact List.take_left' (live_length h)

theorem WF_Reserve {v : Vec α} (h : v.WF) (n : Nat) : (v.Reserve n).WF := by
  constructor
  · rw [size_Reserve, cap_Reserve h]
    exact le_trans h.1 (le_max_left ..)
  · rw [live_Reserve h]
    exact h.2

/-! ### Emplace and the operations delegating to it -/

theorem size_Emplace (v : Vec α) (p : Nat) (x : α) :
    (v.Emplace p x).size = v.size + 1 := by
  simp only [Emplace, EmplaceWithAllocate, EmplaceWithoutAllocate]
  split_ifs <;> rfl

theorem live_Emplace {v : Vec α} (h : v.WF) {p : Nat} (hp : p ≤ v.size)
    (x : α) :
    (v.Emplace p x).live = v.live.take p ++ some x :: v.live.drop p := by
  have hsb : v.size ≤ v.buf.length := h.1
  have hA : (v.buf.take p).length = p := by
    rw [List.length_take]; omega
  have hB : ((v.buf.drop p).take (v.size - p)).length = v.size - p := by
    rw [List.length_take, List.length_drop]; omega
  have hRt : v.live.take p = v.buf.take p := by
    rw [live, List.take_take, min_eq_left hp]
  have hRd : v.live.drop p = (v.buf.drop p).take (v.size - p) := by
    rw [live, List.drop_take]
  have key : ∀ rest : List (Option α),
      (v.buf.take p ++ [some x] ++ (v.buf.drop p).take (v.size - p) ++
          rest).take (v.size + 1) =
        v.live.take p ++ some x :: v.live.drop p := by
    intro rest
    rw [List.append_assoc, List.append_assoc, List.take_append_eq_append_take,
      List.take_of_length_le (by omega : (v.buf.take p).length ≤ v.size + 1),
      hA, show v.size + 1 - p = (v.size - p) + 1 by omega,
      List.singleton_append, List.take_succ_cons,
      List.take_append_eq_append_take,
      List.take_of_length_le (le_of_eq hB), hB,
      show v.size - p - (v.size - p) = 0 by omega,
      List.take_zero, List.append_nil, hRt, hRd]
  simp only [Emplace, EmplaceWithAllocate, EmplaceWithoutAllocate]
  split_ifs with hc h0 hplt
  · have hp0 : p = 0 := by omega
    subst hp0
    simp [live, h0]
  · exact key _
  · exact key _
  · have hps : p = v.size := by omega
    subst hps
    have := key (v.buf.drop (v.size + 1))
    simp only [Nat.sub_self, List.take_zero, List.nil_append,
      List.append_nil] at this
    simpa [live, overwrite] using this

theorem cap_Emplace_grow {v : Vec α} (h : v.WF) (hc : v.size = v.cap)
    {p : Nat} (hp : p ≤ v.size) (x : α) :
    (v.Emplace p x).cap = if v.cap = 0 then 1 else 2 * v.cap := by
  have hsb : v.size ≤ v.buf.length := h.1
  simp only [Emplace, EmplaceWithAllocate, EmplaceWithoutAllocate]
  rw [if_pos hc]
  by_cases h0 : v.size = 0
  · rw [if_pos h0]
    have hcap0 : v.cap = 0 := by omega
    rw [if_pos hcap0]
    rfl
  · rw [if_neg h0]
    have hcapne : ¬v.cap = 0 := by omega
    rw [if_neg hcapne]
    simp only [cap] at hc ⊢
    simp
    omega

theorem cap_Emplace_nogrow {v : Vec α} (h : v.WF) (hc : v.size ≠ v.cap)
    {p : Nat} (hp : p ≤ v.size) (x : α) :
    (v.Emplace p x).cap = v.cap := by
  have hsb : v.size ≤ v.buf.length := h.1
  have hlt : v.size < v.buf.length := by
    have := h.1
    simp [cap] at *
    omega
  simp only [Emplace, EmplaceWithAllocate, EmplaceWithoutAllocate]
  rw [if_neg hc]
  by_cases hplt : p < v.size
  · rw [if_pos hplt]
    simp only [cap]
    simp
    omega
  · rw [if_neg hplt]
    simp only [cap]
    rw [length_overwrite (by simp; omega)]

theorem WF_Emplace {v : Vec α} (h : v.WF) {p : Nat} (hp : p ≤ v.size)
    (x : α) : (v.Emplace p x).WF := by
  constructor
  · rw [size_Emplace]
    by_cases hc : v.size = v.cap
    · rw [cap_Emplace_grow h hc hp]
      have := h.1
      split_ifs <;> omega
    · rw [cap_Emplace_nogrow h hc hp]
      have := h.1
      omega
  · rw [live_Emplace h hp]
    intro o ho
    rcases List.mem_append.mp ho with hl | hr
    · exact h.2 o (List.mem_of_mem_take hl)
    · rcases List.mem_cons.mp hr with rfl | ht
      · rfl
      · exact h.2 o (List.mem_of_mem_drop ht)

/-! ### Erase and PopBack -/

theorem size_Erase (v : Vec α) (q : Nat) : (v.Erase q).size = v.size - 1 := by
  unfold Erase
  split <;> rfl

theorem buf_Erase {v : Vec α} (h : v.WF) {q : Nat} (hq : q < v.size) :
    (v.Erase q).buf =
      v.buf.take q ++ (v.buf.drop (q + 1)).take (v.size - (q + 1)) ++
        [none] ++ v.buf.drop v.size := by
  have hsb : v.size ≤ v.buf.length := h.1
  have hX : ((v.buf.drop (q + 1)).take (v.size - (q + 1))).length =
      v.size - (q + 1) := by
    rw [List.length_take, List.length_drop]; omega
  unfold Erase
  rw [if_neg (by omega)]
  simp only [overwrite, List.length_append, hX, List.length_singleton]
  rw [show q + (v.size - (q + 1) + 1) = v.size by omega]
  simp [List.append_assoc]

theorem live_Erase {v : Vec α} (h : v.WF) {q : Nat} (hq : q < v.size) :
    (v.Erase q).live = v.live.take q ++ v.live.drop (q + 1) := by
  have hsb : v.size ≤ v.buf.length := h.1
  have hX : ((v.buf.drop (q + 1)).take (v.size - (q + 1))).length =
      v.size - (q + 1) := by
    rw [List.length_take, List.length_drop]; omega
  have hA : (v.buf.take q).length = q := by
    rw [List.length_take]; omega
  have hRt : v.live.take q = v.buf.take q := by
    rw [live, List.take_take, min_eq_left (by omega : q ≤ v.size)]
  have hRd : v.live.drop (q + 1) =
      (v.buf.drop (q + 1)).take (v.size - (q + 1)) := by
    rw [live, List.drop_take]
  show ((v.Erase q).buf).take ((v.Erase q).size) = _
  rw [buf_Erase h hq, size_Erase]
  rw [List.append_assoc, List.append_assoc, List.take_append_eq_append_take,
    List.take_of_length_le (by omega : (v.buf.take q).length ≤ v.size - 1),
    hA, List.take_append_eq_append_take,
    List.take_of_length_le (by omega :
      ((v.buf.drop (q + 1)).take (v.size - (q + 1))).length ≤ v.size - 1 - q),
    hX, show v.size - 1 - q - (v.size - (q + 1)) = 0 by omega,
    List.take_zero, List.append_nil, hRt, hRd]

theorem cap_Erase {v : Vec α} (h : v.WF) {q : Nat} (hq : q < v.size) :
    (v.Erase q).cap = v.cap := by
  have hsb : v.size ≤ v.buf.length := h.1
  simp only [cap]
  rw [buf_Erase h hq]
  simp
  omega

theorem last_slot_Erase {v : Vec α} (h : v.WF) {q : Nat} (hq : q < v.size) :
    (v.Erase q).buf[v.size - 1]? = some none := by
  have hsb : v.size ≤ v.buf.length := h.1
  have hX : ((v.buf.drop (q + 1)).take (v.size - (q + 1))).length =
      v.size - (q + 1) := by
    rw [List.length_take, List.length_drop]; omega
  have hA : (v.buf.take q).length = q := by
    rw [List.length_take]; omega
  have hAX : (v.buf.take q ++
      (v.buf.drop (q + 1)).take (v.size - (q + 1))).length = v.size - 1 := by
    rw [List.length_append, hA, hX]; omega
  rw [buf_Erase h hq, List.append_assoc]
  rw [List.getElem?_append_right (by omega)]
  rw [hAX, Nat.sub_self]
  simp

theorem WF_Erase {v : Vec α} (h : v.WF) {q : Nat} (hq : q < v.size) :
    (v.Erase q).WF := by
  constructor
  · rw [size_Erase, cap_Erase h hq]
    have := h.1
    omega
  · rw [live_Erase h hq]
    intro o ho
    rcases List.mem_append.mp ho with hl | hr
    · exact h.2 o (List.mem_of_mem_take hl)
    · exact h.2 o (List.mem_of_mem_drop hr)

theorem size_PopBack (v : Vec α) : v.PopBack.size = v.size - 1 := rfl

theorem live_PopBack {v : Vec α} (h : v.WF) (hpos : 0 < v.size) :
    v.PopBack.live = v.live.take (v.size - 1) := by
  have hsb : v.size ≤ v.buf.length := h.1
  have hA : (v.buf.take (v.size - 1)).length = v.size - 1 := by
    rw [List.length_take]; omega
  show (overwrite v.buf (v.size - 1) [none]).take (v.size - 1) = _
  rw [overwrite, List.append_assoc, List.take_append_eq_append_take,
    List.take_of_length_le (le_of_eq hA), hA, Nat.sub_self, List.take_zero,
    List.append_nil, live, List.take_take,
    min_eq_left (by omega : v.size - 1 ≤ v.size)]

theorem cap_PopBack {v : Vec α} (h : v.WF) (hpos : 0 < v.size) :
    v.PopBack.cap = v.cap := by
  have hsb : v.size ≤ v.buf.length := h.1
  simp only [cap]
  show (overwrite _ _ _).length = _
  rw [length_overwrite (by simp; omega)]

theorem WF_PopBack {v : Vec α} (h : v.WF) (hpos : 0 < v.size) :
    v.PopBack.WF := by
  constructor
  · rw [size_PopBack, cap_PopBack h hpos]
    have := h.1
    omega
  · rw [live_PopBack h hpos]
    intro o ho
    exact h.2 o (List.mem_of_mem_take ho)

/-! ### Resize -/

theorem size_Resize [Inhabited α] (v : Vec α) (n : Nat) :
    (v.Resize n).size = n := by
  unfold Resize
  split_ifs <;> rfl

theorem cap_Resize [Inhabited α] {v : Vec α} (h : v.WF) (n : Nat) :
    (v.Resize n).cap = max v.cap n := by
  have hsb : v.size ≤ v.buf.length := h.1
  unfold Resize
  split_ifs with h1 h2 h3 h4
  · show (overwrite _ _ _).length = _
    rw [length_overwrite (by simp; omega)]
    simp [cap] at h1 ⊢
    omega
  · show (overwrite _ _ _).length = _
    rw [length_overwrite (by simp [cap] at h1 ⊢; omega)]
    simp [cap] at h1 ⊢
    omega
  · simp [cap] at h1 ⊢
    omega
  · show (overwrite (v.Reserve n).buf (v.Reserve n).size _).length = _
    have hc := cap_Reserve h n
    have hs := size_Reserve v n
    rw [length_overwrite (by simp [hs]; simp [cap] at hc h4 ⊢; omega)]
    show (v.Reserve n).cap = _
    rw [hc]
  · simp [cap] at h1 h4 ⊢
    omega

/-! ### Bridging live lists and element lists -/

theorem filterMap_id_map_some (l : List α) :
    (l.map some).filterMap id = l := by
  simp

theorem elems_Reserve {v : Vec α} (h : v.WF) (n : Nat) :
    (v.Reserve n).elems = v.elems := by
  unfold elems
  rw [live_Reserve h]

theorem elems_Emplace {v : Vec α} (h : v.WF) {p : Nat} (hp : p ≤ v.size)
    (x : α) :
    (v.Emplace p x).elems = v.elems.take p ++ x :: v.elems.drop p := by
  unfold elems
  rw [live_Emplace h hp, live_eq_map_some h, ← List.map_take, ← List.map_drop,
    List.filterMap_append, filterMap_id_map_some]
  show _ ++ (some x :: _).filterMap id = _
  rw [show (some x :: (v.elems.drop p).map some).filterMap id =
      x :: ((v.elems.drop p).map some).filterMap id by simp [List.filterMap],
    filterMap_id_map_some, filterMap_id_map_some]

theorem elems_Erase {v : Vec α} (h : v.WF) {q : Nat} (hq : q < v.size) :
    (v.Erase q).elems = v.elems.take q ++ v.elems.drop (q + 1) := by
  unfold elems
  rw [live_Erase h hq, live_eq_map_some h, ← List.map_take, ← List.map_drop,
    List.filterMap_append, filterMap_id_map_some, filterMap_id_map_some,
    filterMap_id_map_some]

/-! ### Copy assignment -/

theorem overwrite_zero (l xs : List (Option α)) :
    overwrite l 0 xs = xs ++ l.drop xs.length := by
  simp [overwrite]

/-- The normal (no-throw) run of `operator=(const Vector&)` on distinct
objects: it succeeds, and the result holds exactly `b`'s live slots with
the capacity dictated by the branch taken. -/
theorem copyAssign_ok {a b : Vec α} (ha : a.WF) (hb : b.WF) :
    ∃ r, copyAssignE false a b none = .ok r ∧ r.size = b.size ∧
      r.live = b.live ∧ r.cap = max a.cap b.size := by
  have hbb : b.size ≤ b.buf.length := hb.1
  have hab : a.size ≤ a.buf.length := ha.1
  have hL : (b.buf.take b.size).length = b.size := by
    rw [List.length_take]; omega
  by_cases hcap : a.cap < b.size
  · refine ⟨⟨b.buf.take b.size, b.size⟩, ?_, rfl, ?_, ?_⟩
    · simp [copyAssignE, hcap]
    · show (b.buf.take b.size).take b.size = b.live
      rw [List.take_take, min_self]
      rfl
    · show (b.buf.take b.size).length = _
      rw [hL]
      omega
  · have hcap' : b.size ≤ a.buf.length := by
      simp [cap] at hcap; omega
    by_cases hsz : a.size < b.size
    · refine ⟨⟨overwrite a.buf 0 (b.buf.take b.size), b.size⟩, ?_, rfl, ?_, ?_⟩
      · simp [copyAssignE, hcap, hsz]
      · show (overwrite a.buf 0 (b.buf.take b.size)).take b.size = b.live
        rw [overwrite_zero, List.take_left' hL]
        rfl
      · show (overwrite a.buf 0 (b.buf.take b.size)).length = _
        rw [overwrite_zero]
        simp [hL, cap] at hcap ⊢
        omega
    · refine ⟨⟨overwrite (overwrite a.buf 0 (b.buf.take b.size)) b.size
          (List.replicate (a.size - b.size) none), b.size⟩, ?_, rfl, ?_, ?_⟩
      · simp [copyAssignE, hcap, hsz]
      · show (overwrite (overwrite a.buf 0 (b.buf.take b.size)) b.size
            (List.replicate (a.size - b.size) none)).take b.size = b.live
        rw [overwrite_zero, overwrite, List.append_assoc,
          List.take_append_eq_append_take]
        rw [List.take_take, min_self, List.take_left' hL, hL, Nat.sub_self,
          List.take_zero, List.append_nil]
        rfl
      · show (overwrite (overwrite a.buf 0 (b.buf.take b.size)) b.size
            (List.replicate (a.size - b.size) none)).length = _
        rw [overwrite_zero, length_overwrite]
        · simp [hL, cap] at hcap ⊢
          omega
        · simp [hL]
          omega

/-- On the reallocating branch of `operator=(const Vector&)` (capacity
too small), a throw anywhere inside the copy construction of the
temporary unwinds without touching the target. -/
theorem copyAssign_realloc_throw {a b : Vec α} (hcap : a.cap < b.size)
    {k : Nat} (hk : k < b.size) :
    copyAssignE false a b (some k) = .error a := by
  simp [copyAssignE, hcap, hk]

/-! ### The claims -/

/-- C1: the claim states that for every `s < n ≤ c`, `Resize(n)`
default-constructs the `n − s` trailing slots `[s, n)` and sets the size
to `n`.  The code contradicts this at the boundary `n = c`: with
`size = 1`, `capacity = 2`, `Resize(2)` takes neither the
`capacity > new_size` branch nor the `capacity < new_size` branch, so no
slot is constructed, yet `size_` is still set to `2` — slot 1 is counted
as live while holding no object, which also breaks the representation
invariant (and, in the source, makes the destructor destroy an object
that was never constructed). -/
theorem claim1_resize_at_capacity_constructs_nothing :
    (Vec.Resize (⟨[some 5, none], 1⟩ : Vec Nat) 2).size = 2 ∧
    (Vec.Resize (⟨[some 5, none], 1⟩ : Vec Nat) 2).buf[1]? = some none ∧
    ¬(Vec.Resize (⟨[some 5, none], 1⟩ : Vec Nat) 2).WF := by
  refine ⟨rfl, rfl, ?_⟩
  decide

/-- C2: the claim states that when a step after the successful
construction of the temporary throws during an in-place mid-array
`Emplace`, the element freshly constructed at slot `size` is destructed
during the unwind.  It is not: on `[1, 2]` with capacity 3, inserting
`9` at position 0 with a throw during the backward shift, the unwind
leaves slot 2 still holding the live object `2` (the `catch` clause runs
`operator delete (end())` — a raw deallocation of the interior address,
recorded by `freedAt = some 2` — and never invokes a destructor).  Only
the size-unchanged half of the claim holds. -/
theorem claim2_emplace_unwind_leaks_slot :
    Vec.EmplaceNoAllocRun (⟨[some 1, some 2, none], 2⟩ : Vec Nat) 0 9
        (.shift 0) =
      Except.error ⟨[some 1, some 2, some 2], 2, some 2⟩ := rfl

/-- C3: the claim states that when the new element's own constructor
throws during a mid-array `Emplace` with spare capacity, the vector is
unchanged after the failure.  At the element level the slots and the
size are indeed untouched, but the `catch` clause still executes
`operator delete (end())` on the address of slot 2 — an address strictly
inside the vector's still-owned allocation, recorded by
`freedAt = some 2` — so the unwind deallocates memory the vector still
owns and the program state after the failure is not the unchanged one
the claim promises. -/
theorem claim3_emplace_ctor_throw_still_frees_memory :
    Vec.EmplaceNoAllocRun (⟨[some 1, some 2, none], 2⟩ : Vec Nat) 0 9
        .tempCtor =
      Except.error ⟨[some 1, some 2, none], 2, some 2⟩ := rfl

/-- C4: inserting into a full vector doubles the capacity (1 from 0),
grows the size by exactly one, and constructs the new element exactly
once, directly at its final offset in the new buffer; `PushBack`,
`EmplaceBack` and `Insert` all delegate to `Emplace`. -/
theorem claim4_growth_doubles_and_constructs_in_place {v : Vec α}
    (h : v.WF) (hc : v.size = v.cap) {p : Nat} (hp : p ≤ v.size) (x : α) :
    GrowSpec v p x := by
  have hlive := live_Emplace h hp x
  have hlen : v.live.length = v.size := live_length h
  refine ⟨cap_Emplace_grow h hc hp x, size_Emplace v p x, ?_, ?_, rfl, rfl,
    rfl⟩
  · simp only [EmplaceWithAllocate]
    by_cases h0 : v.size = 0
    · rw [if_pos h0]
      have : p = 0 := by omega
      rw [this]
    · rw [if_neg h0]
  · have hsz := size_Emplace v p x
    have hp1 : p < (v.Emplace p x).size := by omega
    have : (v.Emplace p x).buf[p]? = (v.Emplace p x).live[p]? := by
      rw [live, List.getElem?_take, if_pos hp1]
    rw [this, hlive, List.getElem?_append,
      if_neg (by rw [List.length_take]; omega)]
    rw [List.length_take, show p - min p v.live.length = 0 by omega]
    simp

/-- Witness for C4 at a concrete input: a full vector of two elements,
insertion at position 1. -/
theorem claim4_witness :
    GrowSpec (⟨[some 1, some 2], 2⟩ : Vec Nat) 1 9 :=
  claim4_growth_doubles_and_constructs_in_place (by decide) (by decide)
    (by decide) 9

/-- C5: `Reserve` is a no-op when the request fits in the current
capacity, otherwise sets the capacity to exactly the request; it never
shrinks the capacity and never changes the size or the element values
and order. -/
theorem claim5_reserve {v : Vec α} (h : v.WF) (n : Nat) : ReserveSpec v n := by
  refine ⟨?_, ?_, ?_, size_Reserve v n, elems_Reserve h n⟩
  · intro hle
    unfold Reserve
    rw [if_pos hle]
  · intro hlt
    rw [cap_Reserve h n]
    omega
  · rw [cap_Reserve h n]
    omega

/-- Witness for C5 at a concrete input. -/
theorem claim5_witness : ReserveSpec (⟨[some 4, none], 1⟩ : Vec Nat) 5 :=
  claim5_reserve (by decide) 5

/-- C6: copy assignment between distinct vectors gives the target `b`'s
size and element values in order; when the target's capacity is smaller
than `b`'s size this happens by copy-and-swap into a fresh buffer of
exactly `b.size` slots (so a throw during the copy leaves the target
untouched); otherwise the capacity is kept, the overlapping prefix is
copy-assigned, the surplus is copy-constructed, and the excess trailing
slots are destructed. -/
theorem claim6_copy_assignment {a b : Vec α} (ha : a.WF) (hb : b.WF) :
    CopyAssignSpec a b := by
  have hbb : b.size ≤ b.buf.length := hb.1
  have hab : a.size ≤ a.buf.length := ha.1
  have hL : (b.buf.take b.size).length = b.size := by
    rw [List.length_take]; omega
  by_cases hcap : a.cap < b.size
  · refine ⟨⟨b.buf.take b.size, b.size⟩, by simp [copyAssignE, hcap], rfl,
      ?_, ?_, ?_, ?_⟩
    · show ((b.buf.take b.size).take b.size).filterMap id = b.elems
      rw [List.take_take, min_self]
      rfl
    · show (b.buf.take b.size).length = _
      rw [hL]
      omega
    · intro hcon
      exact absurd hcap hcon
    · intro _ k hk
      exact copyAssign_realloc_throw hcap hk
  · have hcap' : b.size ≤ a.buf.length := by
      simp [cap] at hcap; omega
    by_cases hsz : a.size < b.size
    · refine ⟨⟨overwrite a.buf 0 (b.buf.take b.size), b.size⟩,
        by simp [copyAssignE, hcap, hsz], rfl, ?_, ?_, ?_, ?_⟩
      · show ((overwrite a.buf 0 (b.buf.take b.size)).take
            b.size).filterMap id = b.elems
        rw [overwrite_zero, List.take_left' hL]
        rfl
      · show (overwrite a.buf 0 (b.buf.take b.size)).length = _
        rw [overwrite_zero]
        simp [hL, cap] at hcap ⊢
        omega
      · intro _ i h1 h2
        omega
      · intro hcon
        exact absurd hcon hcap
    · refine ⟨⟨overwrite (overwrite a.buf 0 (b.buf.take b.size)) b.size
          (List.replicate (a.size - b.size) none), b.size⟩,
        by simp [copyAssignE, hcap, hsz], rfl, ?_, ?_, ?_, ?_⟩
      · show ((overwrite (overwrite a.buf 0 (b.buf.take b.size)) b.size
            (List.replicate (a.size - b.size) none)).take
              b.size).filterMap id = b.elems
        rw [overwrite_zero, overwrite, List.append_assoc,
          List.take_append_eq_append_take, List.take_take, min_self,
          List.take_left' hL, hL, Nat.sub_self, List.take_zero,
          List.append_nil]
        rfl
      · show (overwrite (overwrite a.buf 0 (b.buf.take b.size)) b.size
            (List.replicate (a.size - b.size) none)).length = _
        rw [overwrite_zero, length_overwrite (by simp [hL]; omega)]
        simp [hL, cap] at hcap ⊢
        omega
      · intro _ i h1 h2
        have hAlen : ((b.buf.take b.size ++
            a.buf.drop (b.buf.take b.size).length).take b.size).length =
              b.size := by
          simp [hL]
        show (overwrite (overwrite a.buf 0 (b.buf.take b.size)) b.size
            (List.replicate (a.size - b.size) none))[i]? = some none
        rw [overwrite_zero, overwrite, List.append_assoc,
          List.getElem?_append, hAlen, if_neg (by omega),
          List.getElem?_append, List.length_replicate, if_pos (by omega),
          List.getElem?_replicate]
        rw [if_pos (by omega)]
      · intro hcon
        exact absurd hcon hcap

/-- Witness for C6 at a concrete input exercising the
sufficient-capacity branch with a shrinking assignment. -/
theorem claim6_witness :
    CopyAssignSpec (⟨[some 1, some 2, some 3], 3⟩ : Vec Nat)
      ⟨[some 7, none], 1⟩ :=
  claim6_copy_assignment (by decide) (by decide)

/-- C7: move construction and move assignment transfer the source's
buffer, size and elements to the target and reset the source to a
valid, reusable empty vector of size 0 and capacity 0 (appending to the
emptied source works and yields a one-element vector). -/
theorem claim7_move_resets_source (v a b : Vec α) (x : α) :
    v.moveCtor.1.elems = v.elems ∧ v.moveCtor.1.size = v.size ∧
    v.moveCtor.1.cap = v.cap ∧ v.moveCtor.2.size = 0 ∧
    v.moveCtor.2.cap = 0 ∧ v.moveCtor.2.WF ∧
    (v.moveCtor.2.PushBack x).elems = [x] ∧
    (moveAssign false a b).1.elems = b.elems ∧
    (moveAssign false a b).1.size = b.size ∧
    (moveAssign false a b).1.cap = b.cap ∧
    (moveAssign false a b).2.size = 0 ∧ (moveAssign false a b).2.cap = 0 ∧
    (moveAssign false a b).2.WF ∧
    ((moveAssign false a b).2.PushBack x).elems = [x] := by
  have hWFempty : (⟨[], 0⟩ : Vec α).WF :=
    ⟨Nat.le_refl 0, fun o ho => absurd ho (by simp [live])⟩
  exact ⟨rfl, rfl, rfl, rfl, rfl, hWFempty, rfl, rfl, rfl, rfl, rfl, rfl,
    hWFempty, rfl⟩

/-- C8: inserting a value at a valid position and then erasing at the
same position restores the original size and element order; erasing at
`q < size` shifts the elements of `[q+1, size)` one slot left, destructs
the vacated last slot and decrements the size by one. -/
theorem claim8_insert_then_erase {v : Vec α} (h : v.WF) {p q : Nat}
    (hp : p ≤ v.size) (hq : q < v.size) (x : α) : InsertEraseSpec v p q x := by
  have hWFe := WF_Emplace h hp x
  have hsz := size_Emplace v p x
  have hp1 : p < (v.Emplace p x).size := by omega
  have hlen : v.live.length = v.size := live_length h
  have hA : (v.live.take p).length = p := by
    rw [List.length_take]; omega
  refine ⟨?_, ?_, size_Erase v q, elems_Erase h hq, last_slot_Erase h hq⟩
  · show ((v.Emplace p x).Erase p).size = v.size
    rw [size_Erase, hsz]
    omega
  · show ((v.Emplace p x).Erase p).elems = v.elems
    unfold elems
    rw [live_Erase hWFe hp1, live_Emplace h hp x, List.take_left' hA,
      List.drop_append_eq_append_drop,
      List.drop_eq_nil_of_le (by omega : (v.live.take p).length ≤ p + 1),
      hA, show p + 1 - p = 1 by omega, List.nil_append]
    rw [show (1 : Nat) = 0 + 1 by omega, List.drop_succ_cons,
      List.drop_zero, List.take_append_drop]

/-- Witness for C8 at a concrete input: insert at position 1, erase at
position 0 of a two-element vector with spare capacity. -/
theorem claim8_witness :
    InsertEraseSpec (⟨[some 1, some 2, none], 2⟩ : Vec Nat) 1 0 9 :=
  claim8_insert_then_erase (by decide) (by decide) (by decide) 9

/-- C9: every public operation preserves `size ≤ capacity`. -/
theorem claim9_size_le_capacity [Inhabited α] (v w : Vec α) (x : α)
    (n p q count : Nat) (hv : v.WF) (hw : w.WF) (hp : p ≤ v.size)
    (hq : q < v.size) : InvariantSpec v w x n p q count := by
  have hvb : v.size ≤ v.buf.length := hv.1
  refine ⟨Nat.le_refl 0, ?_, ?_, hv.1, Nat.le_refl 0, ?_, hw.1, Nat.le_refl 0,
    (WF_Reserve hv n).1, ?_, (WF_Emplace hv (Nat.le_refl v.size) x).1,
    (WF_Emplace hv (Nat.le_refl v.size) x).1, (WF_Emplace hv hp x).1,
    (WF_Emplace hv hp x).1, (WF_Erase hv hq).1,
    (WF_PopBack hv (by omega)).1, hw.1, hv.1⟩
  · show count ≤ (List.replicate count (some (default : α))).length
    simp
  · show v.size ≤ (v.buf.take v.size).length
    rw [List.length_take]
    omega
  · intro r hr
    obtain ⟨r₀, h₀, hs, _, hc⟩ := copyAssign_ok hv hw
    rw [h₀] at hr
    injection hr with hr
    rw [← hr, hs, hc]
    have := hw.1
    omega
  · rw [size_Resize, cap_Resize hv n]
    omega

/-- Witness for C9 at concrete inputs. -/
theorem claim9_witness :
    InvariantSpec (⟨[some 1, some 2, none], 2⟩ : Vec Nat) ⟨[some 5], 1⟩
      7 5 2 1 3 :=
  claim9_size_le_capacity _ _ 7 5 2 1 3 (by decide) (by decide) (by decide)
    (by decide)

/-- C10: self copy-assignment and self move-assignment (the
`this != &other` test failing) change nothing: the vector keeps its
size, capacity and elements. -/
theorem claim10_self_assignment_noop (a : Vec α) (f : Option Nat) :
    copyAssignE true a a f = Except.ok a ∧ moveAssign true a a = (a, a) :=
  ⟨rfl, rfl⟩

end Vec

end AdvVec
